import Mathlib

/-!
Verification of the real-time Arabizi→Arabic transliteration engine
(`transliteration-rules.js`, class `ArabicTransliterator`).

Strings are modelled as `List Char`.  A JS regex of the shapes used in the
source (`/x/g`, `/x/gi`, `/xy/gi`) is modelled as a `Pat`: a one- or
two-position pattern of character matchers.  `String.prototype.replace`
with a global regex and a single-character replacement string is modelled
by `replace1`/`replace2`, which scan left to right taking non-overlapping
matches, exactly as the JS engine does.
-/

namespace Translit

/-- A pattern position matcher: which characters the regex accepts there. -/
abbrev CharM := Char → Bool

/-- A compiled pattern: the regexes in the source are literal one- or
two-character patterns (optionally case-insensitive). -/
inductive Pat where
  | one : CharM → Pat
  | two : CharM → CharM → Pat

/-- Case-insensitive single character matcher (`/c/gi` position), given the
two concrete case variants. -/
def ci (a b : Char) : CharM := fun c => c == a || c == b

/-- Case-sensitive single character matcher (`/c/g` position). -/
def ex (a : Char) : CharM := fun c => c == a

/-- A rule `{ pattern, arabic }` from the source: every `arabic` replacement
in the table is a single Arabic character. -/
abbrev Rule := Pat × Char

/-- Global replace of a one-character pattern: every character accepted by
`m` becomes `rep`. -/
def replace1 (m : CharM) (rep : Char) : List Char → List Char
  | [] => []
  | c :: cs => if m c then rep :: replace1 m rep cs else c :: replace1 m rep cs

/-- Global replace of a two-character pattern: left-to-right scan taking
non-overlapping matches, each replaced by the single character `rep` —
the semantics of JS `String.prototype.replace` with a global two-letter
regex. -/
def replace2 (m1 m2 : CharM) (rep : Char) : List Char → List Char
  | [] => []
  | [c] => [c]
  | c :: d :: ds =>
    if m1 c && m2 d then rep :: replace2 m1 m2 rep ds
    else c :: replace2 m1 m2 rep (d :: ds)

/-- `result.replace(rule.pattern, rule.arabic)` for one rule. -/
def replaceAll (p : Pat) (rep : Char) (l : List Char) : List Char :=
  match p with
  | .one m => replace1 m rep l
  | .two m1 m2 => replace2 m1 m2 rep l

/-- The rule table of the constructor (`this.rules`), in source order:
digraphs, Arabizi numerals, case-sensitive emphatic capitals, base
consonants, vowel fallbacks.  Final table per the source
(`T→ت`, `O→ؤ`, `Y→ئ`, lowercase-only `t→ة`). -/
def rules : List Rule := [
  (.two (ci 's' 'S') (ci 'h' 'H'), 'ش'),
  (.two (ci 't' 'T') (ci 'h' 'H'), 'ث'),
  (.two (ci 'd' 'D') (ci 'h' 'H'), 'ذ'),
  (.two (ci 'c' 'C') (ci 'h' 'H'), 'ش'),
  (.one (ex '3'), 'ع'),
  (.one (ex '7'), 'ح'),
  (.one (ex '5'), 'خ'),
  (.one (ex '2'), 'ء'),
  (.one (ex '9'), 'ق'),
  (.one (ex '6'), 'ط'),
  (.one (ex '8'), 'غ'),
  (.one (ex 'S'), 'ص'),
  (.one (ex 'D'), 'ض'),
  (.one (ex 'Z'), 'ظ'),
  (.one (ex 'T'), 'ت'),
  (.one (ex 'O'), 'ؤ'),
  (.one (ex 'Y'), 'ئ'),
  (.one (ci 'a' 'A'), 'ا'),
  (.one (ci 'b' 'B'), 'ب'),
  (.one (ex 't'), 'ة'),
  (.one (ci 'j' 'J'), 'ج'),
  (.one (ci 'd' 'D'), 'د'),
  (.one (ci 'r' 'R'), 'ر'),
  (.one (ci 'z' 'Z'), 'ز'),
  (.one (ci 's' 'S'), 'س'),
  (.one (ci 'f' 'F'), 'ف'),
  (.one (ci 'k' 'K'), 'ك'),
  (.one (ci 'l' 'L'), 'ل'),
  (.one (ci 'm' 'M'), 'م'),
  (.one (ci 'n' 'N'), 'ن'),
  (.one (ci 'h' 'H'), 'ه'),
  (.one (ci 'w' 'W'), 'و'),
  (.one (ci 'y' 'Y'), 'ي'),
  (.one (ci 'p' 'P'), 'ب'),
  (.one (ci 'e' 'E'), 'ي'),
  (.one (ci 'i' 'I'), 'ي'),
  (.one (ci 'o' 'O'), 'و'),
  (.one (ci 'u' 'U'), 'و')]

/-- Apply a rule list in order, each rule as a global replace over the
current (possibly already partially transliterated) string. -/
def applyRules (rs : List Rule) (l : List Char) : List Char :=
  rs.foldl (fun acc r => replaceAll r.1 r.2 acc) l

/-- `transliterate(input)`: sequentially applies every rule of the table.
(The `if (!input) return ''` guard of the source is the identity on this
model: applying the rules to the empty string yields the empty string.) -/
def transliterate (l : List Char) : List Char := applyRules rules l

/-- The separator array `this.separators` of the constructor, in source
order. -/
def sepList : List Char :=
  [' ', '.', ',', '!', '?', ';', ':', '(', ')', '[', ']', '\x7b', '\x7d',
   '-', '_', '+', '=', '*', '/', '\\', '|', '&', '%', '$', '#', '@', '^',
   '~', '\x60', '<', '>', '"', '\x27']

/-- `this.separators.includes(c)`. -/
def isSep (c : Char) : Bool := sepList.contains c

/-- The left boundary scan of `transliterateRealTime`:
`for (let i = cursorPosition - 1; i >= 0; i--) if (separators.includes(currentText[i])) ...`.
`scanLeft text k` checks indices `k-1, k-2, …, 0` in that order and returns
the first (i.e. largest) index holding a separator.  Out-of-range indices
read `undefined` in JS and are never separators, which `List.get?` models. -/
def scanLeft (text : List Char) : Nat → Option Nat
  | 0 => none
  | k + 1 => if (text.get? k).any isSep then some k else scanLeft text k

/-- Index of the first separator of a list, or its length when none occurs:
the right boundary scan
`for (let i = cursorPosition; i < currentText.length; i++) ...`
is this scan over the part of the text from the cursor on. -/
def firstSepIdx : List Char → Nat
  | [] => 0
  | c :: cs => if isSep c then 0 else firstSepIdx cs + 1

/-- `leftBoundary + 1` of `transliterateRealTime`: one past the nearest
separator strictly left of the cursor, or `0` when there is none
(`leftBoundary = -1`). -/
def leftB (text : List Char) (cp : Nat) : Nat :=
  match scanLeft text cp with
  | some i => i + 1
  | none => 0

/-- `rightBoundary` of `transliterateRealTime`: the index of the nearest
separator at or right of the cursor, or `text.length` when there is none.
The `min` reflects that the JS loop body only runs on in-range indices. -/
def rightB (text : List Char) (cp : Nat) : Nat :=
  min cp text.length + firstSepIdx (text.drop (min cp text.length))

/-- `transliterateRealTime(currentText, cursorPosition)` with the engine's
`isEnabled` flag passed explicitly.  The cursor is an arbitrary integer, as
in JS; `Int.toNat` reflects that the JS scans and `substring` treat
negative positions as `0`. -/
def transliterateRealTime (enabled : Bool) (currentText : List Char)
    (cursorPosition : Int) : List Char × Int :=
  if enabled = false then (currentText, cursorPosition)
  else
    let cp : Nat := cursorPosition.toNat
    let committedPrefix := currentText.take (leftB currentText cp)
    let activeSegment :=
      (currentText.take (rightB currentText cp)).drop (leftB currentText cp)
    let suffix := currentText.drop (rightB currentText cp)
    (transliterate committedPrefix ++ transliterate activeSegment ++
       transliterate suffix,
     ((transliterate (currentText.take cp)).length : Int))

/-- The engine object: its per-instance fields from the constructor. -/
structure ArabicTransliterator where
  ruleTable : List Rule
  isEnabled : Bool
  keyboardLayout : String
  separators : List Char

/-- `new ArabicTransliterator()`. -/
def mkTransliterator : ArabicTransliterator :=
  { ruleTable := rules, isEnabled := true, keyboardLayout := "AZERTY",
    separators := sepList }

/-- Method form of `transliterate`: reads only the instance's rule table. -/
def ArabicTransliterator.transliterateM (e : ArabicTransliterator)
    (l : List Char) : List Char :=
  applyRules e.ruleTable l

/-- `setEnabled(enabled)`: assigns `this.isEnabled`. -/
def setEnabled (e : ArabicTransliterator) (b : Bool) : ArabicTransliterator :=
  { e with isEnabled := b }

/-- Whether pattern `p` accepts character `c` at one of its positions. -/
def patHits (p : Pat) (c : Char) : Bool :=
  match p with
  | .one m => m c
  | .two m1 m2 => m1 c || m2 c

/-- A character no rule of the table can ever match, at any pattern
position.  All Arabic replacement characters and all separators are dead. -/
def deadC (c : Char) : Bool := rules.all fun r => !(patHits r.1 c)

end Translit

namespace Translit

/-! Basic lemmas about the two replacement scans. -/

theorem replace1_append (m : CharM) (rep : Char) (x y : List Char) :
    replace1 m rep (x ++ y) = replace1 m rep x ++ replace1 m rep y := by
  induction x with
  | nil => rfl
  | cons c cs ih =>
    simp only [List.cons_append, replace1]
    split <;> simp [ih]

theorem length_replace1 (m : CharM) (rep : Char) (l : List Char) :
    (replace1 m rep l).length = l.length := by
  induction l with
  | nil => rfl
  | cons c cs ih =>
    simp only [replace1]
    split <;> simp [ih]

theorem replace1_id (m : CharM) (rep : Char) :
    ∀ l : List Char, (∀ c ∈ l, m c = false) → replace1 m rep l = l := by
  intro l h
  induction l with
  | nil => rfl
  | cons c cs ih =>
    have hc : m c = false := h c (List.mem_cons_self _ _)
    simp only [replace1, hc]
    simp [ih fun d hd => h d (List.mem_cons_of_mem _ hd)]

theorem mem_replace1 (m : CharM) (rep : Char) :
    ∀ l c, c ∈ replace1 m rep l → c = rep ∨ (c ∈ l ∧ m c = false) := by
  intro l
  induction l with
  | nil => intro c h; simp [replace1] at h
  | cons a cs ih =>
    intro c h
    simp only [replace1] at h
    by_cases ha : m a = true
    · rw [if_pos ha] at h
      rcases List.mem_cons.mp h with h1 | h2
      · exact Or.inl h1
      · rcases ih c h2 with h3 | ⟨h4, h5⟩
        · exact Or.inl h3
        · exact Or.inr ⟨List.mem_cons_of_mem _ h4, h5⟩
    · rw [if_neg ha] at h
      rcases List.mem_cons.mp h with h1 | h2
      · subst h1
        exact Or.inr ⟨List.mem_cons_self _ _, Bool.not_eq_true _ ▸ ha⟩
      · rcases ih c h2 with h3 | ⟨h4, h5⟩
        · exact Or.inl h3
        · exact Or.inr ⟨List.mem_cons_of_mem _ h4, h5⟩

theorem replace2_dead_cons (m1 m2 : CharM) (rep d : Char) (ds : List Char)
    (hd : m1 d = false) :
    replace2 m1 m2 rep (d :: ds) = d :: replace2 m1 m2 rep ds := by
  cases ds with
  | nil => rfl
  | cons e es => simp [replace2, hd]

theorem replace2_id (m1 m2 : CharM) (rep : Char) :
    ∀ l : List Char, (∀ c ∈ l, m2 c = false) → replace2 m1 m2 rep l = l
  | [], _ => rfl
  | [a], _ => rfl
  | a :: b :: bs, h => by
    have hb : m2 b = false := h b (by simp)
    simp only [replace2, hb, Bool.and_false]
    simp [replace2_id m1 m2 rep (b :: bs) fun c hc => h c (List.mem_cons_of_mem _ hc)]

theorem mem_replace2 (m1 m2 : CharM) (rep : Char) :
    ∀ l c, c ∈ replace2 m1 m2 rep l → c = rep ∨ c ∈ l
  | [], c => by intro h; simp [replace2] at h
  | [a], c => by
    intro h
    simp only [replace2] at h
    exact Or.inr h
  | a :: b :: bs, c => by
    intro h
    simp only [replace2] at h
    by_cases hab : (m1 a && m2 b) = true
    · rw [if_pos hab] at h
      rcases List.mem_cons.mp h with h1 | h2
      · exact Or.inl h1
      · rcases mem_replace2 m1 m2 rep bs c h2 with h3 | h4
        · exact Or.inl h3
        · exact Or.inr (by simp [h4])
    · rw [if_neg hab] at h
      rcases List.mem_cons.mp h with h1 | h2
      · exact Or.inr (by simp [h1])
      · rcases mem_replace2 m1 m2 rep (b :: bs) c h2 with h3 | h4
        · exact Or.inl h3
        · exact Or.inr (List.mem_cons_of_mem _ h4)

theorem replace1_split (m : CharM) (rep sep : Char) (hs : m sep = false)
    (z r : List Char) :
    replace1 m rep (z ++ sep :: r) =
      replace1 m rep z ++ sep :: replace1 m rep r := by
  rw [replace1_append]
  simp [replace1, hs]

theorem replace2_split (m1 m2 : CharM) (rep sep : Char) (h1 : m1 sep = false)
    (h2 : m2 sep = false) :
    ∀ z r : List Char, replace2 m1 m2 rep (z ++ sep :: r) =
      replace2 m1 m2 rep z ++ sep :: replace2 m1 m2 rep r
  | [], r => by
    simp [replace2_dead_cons m1 m2 rep sep r h1, replace2]
  | [a], r => by
    have hstep : replace2 m1 m2 rep (a :: sep :: r) =
        a :: replace2 m1 m2 rep (sep :: r) := by
      simp [replace2, h2]
    simpa [replace2, replace2_dead_cons m1 m2 rep sep r h1] using hstep
  | a :: b :: z', r => by
    have hrec1 := replace2_split m1 m2 rep sep h1 h2 z' r
    have hrec2 := replace2_split m1 m2 rep sep h1 h2 (b :: z') r
    by_cases hab : (m1 a && m2 b) = true
    · simp only [List.cons_append, replace2, List.append_eq]
      rw [if_pos hab, if_pos hab, hrec1]
      rfl
    · simp only [List.cons_append, replace2, List.append_eq]
      rw [if_neg hab, if_neg hab,
        show b :: (z' ++ sep :: r) = (b :: z') ++ sep :: r from rfl, hrec2]
      rfl

/-! Lemmas about applying the whole rule list. -/

theorem applyRules_cons (r : Rule) (rs : List Rule) (l : List Char) :
    applyRules (r :: rs) l = applyRules rs (replaceAll r.1 r.2 l) := rfl

theorem applyRules_split (rs : List Rule) (sep : Char)
    (h : ∀ r ∈ rs, patHits r.1 sep = false) :
    ∀ z t : List Char,
      applyRules rs (z ++ sep :: t) = applyRules rs z ++ sep :: applyRules rs t := by
  induction rs with
  | nil => intro z t; rfl
  | cons r rs ih =>
    intro z t
    have hr := h r (List.mem_cons_self _ _)
    have hstep : replaceAll r.1 r.2 (z ++ sep :: t) =
        replaceAll r.1 r.2 z ++ sep :: replaceAll r.1 r.2 t := by
      rcases r with ⟨p, rep⟩
      cases p with
      | one m =>
        have hm : m sep = false := by simpa [patHits] using hr
        simpa [replaceAll] using replace1_split m rep sep hm z t
      | two m1 m2 =>
        have hm : (m1 sep || m2 sep) = false := by simpa [patHits] using hr
        rcases Bool.or_eq_false_iff.mp hm with ⟨hm1, hm2⟩
        simpa [replaceAll] using replace2_split m1 m2 rep sep hm1 hm2 z t
    rw [applyRules_cons, applyRules_cons, applyRules_cons, hstep]
    exact ih (fun r hr => h r (List.mem_cons_of_mem _ hr)) _ _

theorem applyRules_id (rs : List Rule) :
    ∀ l : List Char, (∀ ch ∈ l, ∀ r ∈ rs, patHits r.1 ch = false) →
      applyRules rs l = l := by
  induction rs with
  | nil => intro l _; rfl
  | cons r rs ih =>
    intro l h
    have hstep : replaceAll r.1 r.2 l = l := by
      rcases r with ⟨p, rep⟩
      cases p with
      | one m =>
        apply replace1_id
        intro ch hch
        have := h ch hch (Pat.one m, rep) (List.mem_cons_self _ _)
        simpa [patHits] using this
      | two m1 m2 =>
        apply replace2_id
        intro ch hch
        have := h ch hch (Pat.two m1 m2, rep) (List.mem_cons_self _ _)
        have h2 : (m1 ch || m2 ch) = false := by simpa [patHits] using this
        exact (Bool.or_eq_false_iff.mp h2).2
    rw [applyRules_cons, hstep]
    exact ih l fun ch hch r hr => h ch hch r (List.mem_cons_of_mem _ hr)

/-! Dead characters and separators hit no pattern. -/

theorem deadC_patMiss {d : Char} (h : deadC d = true) :
    ∀ r ∈ rules, patHits r.1 d = false := by
  intro r hr
  have := List.all_eq_true.mp h r hr
  simpa using this

theorem sep_dead : ∀ s ∈ sepList, deadC s = true := by
  decide

theorem isSep_mem {c : Char} (h : isSep c = true) : c ∈ sepList := by
  have h' : sepList.elem c = true := by simpa [isSep, List.contains] using h
  exact List.mem_of_elem_eq_true h'

theorem transliterate_split (sep : Char) (hs : isSep sep = true)
    (z t : List Char) :
    transliterate (z ++ sep :: t) =
      transliterate z ++ sep :: transliterate t :=
  applyRules_split rules sep
    (fun r hr => deadC_patMiss (sep_dead sep (isSep_mem hs)) r hr) z t

/-! The boundary scans. -/

theorem transliterate_nil : transliterate [] = [] := rfl

theorem scanLeft_lt {text : List Char} : ∀ {k i : Nat},
    scanLeft text k = some i → i < k := by
  intro k
  induction k with
  | zero => intro i h; simp [scanLeft] at h
  | succ k ih =>
    intro i h
    simp only [scanLeft] at h
    by_cases hc : ((text.get? k).any isSep) = true
    · rw [if_pos hc] at h
      cases h
      exact Nat.lt_succ_self k
    · rw [if_neg hc] at h
      exact Nat.lt_succ_of_lt (ih h)

theorem scanLeft_sep {text : List Char} : ∀ {k i : Nat},
    scanLeft text k = some i → (text.get? i).any isSep = true := by
  intro k
  induction k with
  | zero => intro i h; simp [scanLeft] at h
  | succ k ih =>
    intro i h
    simp only [scanLeft] at h
    by_cases hc : ((text.get? k).any isSep) = true
    · rw [if_pos hc] at h
      cases h
      exact hc
    · rw [if_neg hc] at h
      exact ih h

theorem scanLeft_high {text : List Char} : ∀ {k : Nat},
    text.length ≤ k → scanLeft text k = scanLeft text text.length := by
  intro k
  induction k with
  | zero => intro h; rw [Nat.le_zero.mp h]
  | succ k ih =>
    intro h
    by_cases he : text.length = k + 1
    · rw [he]
    · have hk : text.length ≤ k := by omega
      have hnone : text.get? k = none := List.get?_eq_none.mpr hk
      simp only [scanLeft, hnone, Option.any_none, Bool.false_eq_true, if_false]
      exact ih hk

theorem firstSepIdx_le : ∀ l : List Char, firstSepIdx l ≤ l.length := by
  intro l
  induction l with
  | nil => exact Nat.le_refl 0
  | cons c cs ih =>
    simp only [firstSepIdx]
    split
    · exact Nat.zero_le _
    · simpa [List.length_cons] using Nat.succ_le_succ ih

theorem firstSepIdx_spec : ∀ l : List Char,
    firstSepIdx l = l.length ∨ (l.get? (firstSepIdx l)).any isSep = true := by
  intro l
  induction l with
  | nil => exact Or.inl rfl
  | cons c cs ih =>
    by_cases hc : isSep c = true
    · right; simp [firstSepIdx, hc]
    · simp only [firstSepIdx, if_neg hc]
      rcases ih with h | h
      · left; simp [h]
      · right; simpa using h

theorem leftB_cases (t : List Char) (cp : Nat) :
    leftB t cp = 0 ∨
      ∃ i, leftB t cp = i + 1 ∧ (t.get? i).any isSep = true ∧
        i < cp ∧ i < t.length := by
  unfold leftB
  cases hsl : scanLeft t cp with
  | none => exact Or.inl rfl
  | some i =>
    right
    have hsep := scanLeft_sep hsl
    refine ⟨i, rfl, hsep, scanLeft_lt hsl, ?_⟩
    by_contra hni
    rw [List.get?_eq_none.mpr (Nat.le_of_not_lt hni)] at hsep
    simp at hsep

theorem rightB_le (t : List Char) (cp : Nat) : rightB t cp ≤ t.length := by
  unfold rightB
  have h1 := firstSepIdx_le (t.drop (min cp t.length))
  rw [List.length_drop] at h1
  omega

theorem leftB_le_rightB (t : List Char) (cp : Nat) :
    leftB t cp ≤ rightB t cp := by
  rcases leftB_cases t cp with h0 | ⟨i, heq, _, hicp, hilen⟩
  · rw [h0]; exact Nat.zero_le _
  · rw [heq]
    unfold rightB
    have h1 : i + 1 ≤ min cp t.length := Nat.le_min.mpr ⟨hicp, hilen⟩
    exact le_trans h1 (Nat.le_add_right _ _)

theorem rightB_cases (t : List Char) (cp : Nat) :
    rightB t cp = t.length ∨ (t.get? (rightB t cp)).any isSep = true := by
  unfold rightB
  rcases firstSepIdx_spec (t.drop (min cp t.length)) with h | h
  · left
    rw [h, List.length_drop]
    omega
  · right
    rw [List.get?_drop] at h
    exact h

/-! The real-time result text equals the full-text transliteration. -/

theorem transliterate_take_append (t : List Char) {lb rb : Nat}
    (hlr : lb ≤ rb) : t.take lb ++ (t.take rb).drop lb = t.take rb := by
  conv_rhs => rw [← List.take_append_drop lb (t.take rb)]
  congr 1
  rw [List.take_take, Nat.min_eq_left hlr]

theorem rt_split_left (t X : List Char) (cp : Nat) :
    transliterate (t.take (leftB t cp) ++ X) =
      transliterate (t.take (leftB t cp)) ++ transliterate X := by
  rcases leftB_cases t cp with h0 | ⟨i, heq, hsep, _, _⟩
  · rw [h0]
    simp [transliterate_nil]
  · cases hget : t.get? i with
    | none => rw [hget] at hsep; simp at hsep
    | some w =>
      have hw : isSep w = true := by rw [hget] at hsep; simpa using hsep
      have htake : t.take (i + 1) = t.take i ++ [w] := by
        rw [List.take_succ,
          show t[i]? = some w from by rw [← List.get?_eq_getElem?]; exact hget]
        rfl
      rw [heq, htake, List.append_assoc,
        show ([w] : List Char) ++ X = w :: X from rfl,
        transliterate_split w hw (t.take i) X,
        transliterate_split w hw (t.take i) []]
      simp [transliterate_nil]

theorem rt_split_suffix (t A : List Char) (cp : Nat) :
    transliterate (A ++ t.drop (rightB t cp)) =
      transliterate A ++ transliterate (t.drop (rightB t cp)) := by
  rcases rightB_cases t cp with h | h
  · rw [h, List.drop_length]
    simp [transliterate_nil]
  · cases hget : t.get? (rightB t cp) with
    | none => rw [hget] at h; simp at h
    | some w =>
      have hw : isSep w = true := by rw [hget] at h; simpa using h
      have hlt : rightB t cp < t.length := by
        by_contra hn
        rw [List.get?_eq_none.mpr (Nat.le_of_not_lt hn)] at hget
        cases hget
      have hdrop : t.drop (rightB t cp) = w :: t.drop (rightB t cp + 1) := by
        rw [List.drop_eq_get_cons hlt]
        congr 1
        have := List.get?_eq_get hlt
        rw [hget] at this
        exact (Option.some.inj this).symm
      have hhead : transliterate (w :: t.drop (rightB t cp + 1)) =
          w :: transliterate (t.drop (rightB t cp + 1)) := by
        have hz := transliterate_split w hw [] (t.drop (rightB t cp + 1))
        simpa [transliterate_nil] using hz
      rw [hdrop, transliterate_split w hw A (t.drop (rightB t cp + 1)), hhead]

theorem rt_text (t : List Char) (cp : Nat) :
    transliterate (t.take (leftB t cp)) ++
      transliterate ((t.take (rightB t cp)).drop (leftB t cp)) ++
      transliterate (t.drop (rightB t cp)) = transliterate t := by
  have hlr := leftB_le_rightB t cp
  calc
    transliterate (t.take (leftB t cp)) ++
        transliterate ((t.take (rightB t cp)).drop (leftB t cp)) ++
        transliterate (t.drop (rightB t cp))
      = transliterate (t.take (leftB t cp)) ++
          transliterate ((t.take (rightB t cp)).drop (leftB t cp) ++
            t.drop (rightB t cp)) := by
        rw [List.append_assoc, rt_split_suffix t _ cp]
    _ = transliterate (t.take (leftB t cp) ++
          ((t.take (rightB t cp)).drop (leftB t cp) ++
            t.drop (rightB t cp))) := by
        rw [rt_split_left t _ cp]
    _ = transliterate t := by
        rw [← List.append_assoc, transliterate_take_append t hlr,
          List.take_append_drop]

theorem rt_true_eq (t : List Char) (c : Int) :
    transliterateRealTime true t c =
      (transliterate (t.take (leftB t c.toNat)) ++
         transliterate ((t.take (rightB t c.toNat)).drop (leftB t c.toNat)) ++
         transliterate (t.drop (rightB t c.toNat)),
       ((transliterate (t.take c.toNat)).length : Int)) := rfl

theorem rt_text_full (t : List Char) (c : Int) :
    (transliterateRealTime true t c).1 = transliterate t := by
  rw [rt_true_eq]
  exact rt_text t c.toNat

/-! Idempotence machinery: every character of a transliterated string is
beyond the reach of every rule, because each single-character rule has
globally replaced everything its matcher accepts, every digraph needs an
`h`/`H` as its second character and none survives the `h` rule, and all
replacement characters are Arabic, matched by nothing. -/

/-- What a rule needs of a character so that the rule can never fire on a
string all of whose characters satisfy it: single-character rules must not
accept it, digraphs must not accept it at their second position. -/
def stableFor (p : Pat) (c : Char) : Bool :=
  match p with
  | .one m => !(m c)
  | .two _ m2 => !(m2 c)

theorem mem_replaceAll (p : Pat) (rep : Char) (l : List Char) (c : Char) :
    c ∈ replaceAll p rep l → c = rep ∨ c ∈ l := by
  cases p with
  | one m =>
    intro h
    rcases mem_replace1 m rep l c h with h1 | ⟨h2, _⟩
    · exact Or.inl h1
    · exact Or.inr h2
  | two m1 m2 => exact mem_replace2 m1 m2 rep l c

theorem applyRules_append (rs1 rs2 : List Rule) (l : List Char) :
    applyRules (rs1 ++ rs2) l = applyRules rs2 (applyRules rs1 l) := by
  unfold applyRules
  rw [List.foldl_append]

theorem applyRules_mem_miss (m : CharM) :
    ∀ (rs : List Rule) (x : List Char), (∀ r ∈ rs, m r.2 = false) →
      (∀ c ∈ x, m c = false) → ∀ c ∈ applyRules rs x, m c = false := by
  intro rs
  induction rs with
  | nil => intro x _ hx c hc; exact hx c hc
  | cons r rs ih =>
    intro x hrs hx c hc
    rw [applyRules_cons] at hc
    refine ih _ (fun r hr => hrs r (List.mem_cons_of_mem _ hr)) ?_ c hc
    intro d hd
    rcases mem_replaceAll r.1 r.2 x d hd with h1 | h2
    · rw [h1]; exact hrs r (List.mem_cons_self _ _)
    · exact hx d h2

theorem transliterate_one_miss (pre post : List Rule) (m : CharM) (rep : Char)
    (hsplit : rules = pre ++ (Pat.one m, rep) :: post)
    (hrep : m rep = false) (hpost : ∀ r ∈ post, m r.2 = false) :
    ∀ (l : List Char), ∀ c ∈ transliterate l, m c = false := by
  intro l c hc
  rw [transliterate, hsplit, applyRules_append, applyRules_cons] at hc
  refine applyRules_mem_miss m post _ hpost ?_ c hc
  intro d hd
  rcases mem_replace1 m rep _ d hd with h1 | ⟨_, h2⟩
  · rw [h1]; exact hrep
  · exact h2

theorem applyRules_stable_id (rs : List Rule) :
    ∀ l, (∀ c ∈ l, ∀ r ∈ rs, stableFor r.1 c = true) → applyRules rs l = l := by
  induction rs with
  | nil => intro l _; rfl
  | cons r rs ih =>
    intro l h
    have hstep : replaceAll r.1 r.2 l = l := by
      rcases r with ⟨p, rep⟩
      cases p with
      | one m =>
        apply replace1_id
        intro ch hch
        have := h ch hch (Pat.one m, rep) (List.mem_cons_self _ _)
        simpa [stableFor] using this
      | two m1 m2 =>
        apply replace2_id
        intro ch hch
        have := h ch hch (Pat.two m1 m2, rep) (List.mem_cons_self _ _)
        simpa [stableFor] using this
    rw [applyRules_cons, hstep]
    exact ih l fun ch hch r hr => h ch hch r (List.mem_cons_of_mem _ hr)

theorem stable_out (l : List Char) :
    ∀ c ∈ transliterate l, ∀ r ∈ rules, stableFor r.1 c = true := by
  intro c hc
  have f01 := transliterate_one_miss (rules.take 4) (rules.drop 5) (ex '3') 'ع' rfl (by decide) (by decide) l c hc
  have f02 := transliterate_one_miss (rules.take 5) (rules.drop 6) (ex '7') 'ح' rfl (by decide) (by decide) l c hc
  have f03 := transliterate_one_miss (rules.take 6) (rules.drop 7) (ex '5') 'خ' rfl (by decide) (by decide) l c hc
  have f04 := transliterate_one_miss (rules.take 7) (rules.drop 8) (ex '2') 'ء' rfl (by decide) (by decide) l c hc
  have f05 := transliterate_one_miss (rules.take 8) (rules.drop 9) (ex '9') 'ق' rfl (by decide) (by decide) l c hc
  have f06 := transliterate_one_miss (rules.take 9) (rules.drop 10) (ex '6') 'ط' rfl (by decide) (by decide) l c hc
  have f07 := transliterate_one_miss (rules.take 10) (rules.drop 11) (ex '8') 'غ' rfl (by decide) (by decide) l c hc
  have f08 := transliterate_one_miss (rules.take 11) (rules.drop 12) (ex 'S') 'ص' rfl (by decide) (by decide) l c hc
  have f09 := transliterate_one_miss (rules.take 12) (rules.drop 13) (ex 'D') 'ض' rfl (by decide) (by decide) l c hc
  have f10 := transliterate_one_miss (rules.take 13) (rules.drop 14) (ex 'Z') 'ظ' rfl (by decide) (by decide) l c hc
  have f11 := transliterate_one_miss (rules.take 14) (rules.drop 15) (ex 'T') 'ت' rfl (by decide) (by decide) l c hc
  have f12 := transliterate_one_miss (rules.take 15) (rules.drop 16) (ex 'O') 'ؤ' rfl (by decide) (by decide) l c hc
  have f13 := transliterate_one_miss (rules.take 16) (rules.drop 17) (ex 'Y') 'ئ' rfl (by decide) (by decide) l c hc
  have f14 := transliterate_one_miss (rules.take 17) (rules.drop 18) (ci 'a' 'A') 'ا' rfl (by decide) (by decide) l c hc
  have f15 := transliterate_one_miss (rules.take 18) (rules.drop 19) (ci 'b' 'B') 'ب' rfl (by decide) (by decide) l c hc
  have f16 := transliterate_one_miss (rules.take 19) (rules.drop 20) (ex 't') 'ة' rfl (by decide) (by decide) l c hc
  have f17 := transliterate_one_miss (rules.take 20) (rules.drop 21) (ci 'j' 'J') 'ج' rfl (by decide) (by decide) l c hc
  have f18 := transliterate_one_miss (rules.take 21) (rules.drop 22) (ci 'd' 'D') 'د' rfl (by decide) (by decide) l c hc
  have f19 := transliterate_one_miss (rules.take 22) (rules.drop 23) (ci 'r' 'R') 'ر' rfl (by decide) (by decide) l c hc
  have f20 := transliterate_one_miss (rules.take 23) (rules.drop 24) (ci 'z' 'Z') 'ز' rfl (by decide) (by decide) l c hc
  have f21 := transliterate_one_miss (rules.take 24) (rules.drop 25) (ci 's' 'S') 'س' rfl (by decide) (by decide) l c hc
  have f22 := transliterate_one_miss (rules.take 25) (rules.drop 26) (ci 'f' 'F') 'ف' rfl (by decide) (by decide) l c hc
  have f23 := transliterate_one_miss (rules.take 26) (rules.drop 27) (ci 'k' 'K') 'ك' rfl (by decide) (by decide) l c hc
  have f24 := transliterate_one_miss (rules.take 27) (rules.drop 28) (ci 'l' 'L') 'ل' rfl (by decide) (by decide) l c hc
  have f25 := transliterate_one_miss (rules.take 28) (rules.drop 29) (ci 'm' 'M') 'م' rfl (by decide) (by decide) l c hc
  have f26 := transliterate_one_miss (rules.take 29) (rules.drop 30) (ci 'n' 'N') 'ن' rfl (by decide) (by decide) l c hc
  have f27 := transliterate_one_miss (rules.take 30) (rules.drop 31) (ci 'h' 'H') 'ه' rfl (by decide) (by decide) l c hc
  have f28 := transliterate_one_miss (rules.take 31) (rules.drop 32) (ci 'w' 'W') 'و' rfl (by decide) (by decide) l c hc
  have f29 := transliterate_one_miss (rules.take 32) (rules.drop 33) (ci 'y' 'Y') 'ي' rfl (by decide) (by decide) l c hc
  have f30 := transliterate_one_miss (rules.take 33) (rules.drop 34) (ci 'p' 'P') 'ب' rfl (by decide) (by decide) l c hc
  have f31 := transliterate_one_miss (rules.take 34) (rules.drop 35) (ci 'e' 'E') 'ي' rfl (by decide) (by decide) l c hc
  have f32 := transliterate_one_miss (rules.take 35) (rules.drop 36) (ci 'i' 'I') 'ي' rfl (by decide) (by decide) l c hc
  have f33 := transliterate_one_miss (rules.take 36) (rules.drop 37) (ci 'o' 'O') 'و' rfl (by decide) (by decide) l c hc
  have f34 := transliterate_one_miss (rules.take 37) (rules.drop 38) (ci 'u' 'U') 'و' rfl (by decide) (by decide) l c hc
  intro r hr
  fin_cases hr <;> simp only [stableFor, Bool.not_eq_true'] <;> assumption

/-! Length monotonicity machinery for the cursor computation: a two-letter
pass over a concatenation either splits cleanly or has exactly one match
crossing the boundary, which consumes the last character of the left part
and leaves a dead (Arabic) replacement character at the seam. -/

theorem replaceAll_nil (p : Pat) (rep : Char) : replaceAll p rep [] = [] := by
  cases p <;> rfl

theorem applyRules_nil : ∀ rs : List Rule, applyRules rs [] = [] := by
  intro rs
  induction rs with
  | nil => rfl
  | cons r rs ih => rw [applyRules_cons, replaceAll_nil]; exact ih

theorem replace2_cut (m1 m2 : CharM) (rep : Char) :
    ∀ x u : List Char,
      replace2 m1 m2 rep (x ++ u) =
          replace2 m1 m2 rep x ++ replace2 m1 m2 rep u ∨
        ∃ x1 c d u1, x = x1 ++ [c] ∧ u = d :: u1 ∧
          replace2 m1 m2 rep x = replace2 m1 m2 rep x1 ++ [c] ∧
          replace2 m1 m2 rep (x ++ u) =
            replace2 m1 m2 rep x1 ++ rep :: replace2 m1 m2 rep u1
  | [], u => by
    left
    simp [replace2]
  | [a], u => by
    cases u with
    | nil => left; simp [replace2]
    | cons d u1 =>
      by_cases had : (m1 a && m2 d) = true
      · right
        refine ⟨[], a, d, u1, rfl, rfl, rfl, ?_⟩
        simp only [List.cons_append, List.nil_append, replace2, if_pos had]
      · left
        simp only [List.cons_append, List.nil_append, replace2, if_neg had]
  | a :: b :: x', u => by
    by_cases hab : (m1 a && m2 b) = true
    · rcases replace2_cut m1 m2 rep x' u with hcut | ⟨x1, c, d, u1, hx, hu, hfx, hfxu⟩
      · left
        simp only [List.cons_append, replace2, List.append_eq]
        rw [if_pos hab, if_pos hab, hcut]
        rfl
      · right
        refine ⟨a :: b :: x1, c, d, u1, by rw [hx]; rfl, hu, ?_, ?_⟩
        · simp only [replace2, List.cons_append]
          rw [if_pos hab, if_pos hab, hfx]
          rfl
        · simp only [List.cons_append, replace2, List.append_eq]
          rw [if_pos hab, if_pos hab, hfxu]
          rfl
    · rcases replace2_cut m1 m2 rep (b :: x') u with hcut | ⟨x1, c, d, u1, hx, hu, hfx, hfxu⟩
      · left
        simp only [List.cons_append, replace2, List.append_eq]
        rw [if_neg hab, if_neg hab,
          show b :: (x' ++ u) = (b :: x') ++ u from rfl, hcut]
        rfl
      · right
        have hhead : replace2 m1 m2 rep (a :: x1) =
            a :: replace2 m1 m2 rep x1 := by
          cases x1 with
          | nil => rfl
          | cons e x1' =>
            have hbe : b = e := by
              have : b :: x' = e :: (x1' ++ [c]) := by
                simpa using hx
              exact (List.cons.injEq _ _ _ _ ▸ this).1
            have hcond : (m1 a && m2 e) ≠ true := by rw [← hbe]; exact hab
            simp only [replace2, if_neg hcond]
        refine ⟨a :: x1, c, d, u1, by rw [show a :: b :: x' = a :: (b :: x') from rfl, hx]; rfl,
          hu, ?_, ?_⟩
        · have hA : replace2 m1 m2 rep (a :: b :: x') =
              a :: replace2 m1 m2 rep (b :: x') := by
            simp only [replace2, if_neg hab]
          rw [hA, hfx, hhead]
          rfl
        · have hB : replace2 m1 m2 rep ((a :: b :: x') ++ u) =
              a :: replace2 m1 m2 rep ((b :: x') ++ u) := by
            simp only [List.cons_append, replace2, List.append_eq]
            rw [if_neg hab]
          rw [hB, hfxu, hhead]
          rfl

theorem monoGG :
    ∀ rs : List Rule,
      (∀ r ∈ rs, deadC r.2 = true ∧
        ∀ e, deadC e = true → patHits r.1 e = false) →
      (∀ x u : List Char,
        (applyRules rs x).length ≤ (applyRules rs (x ++ u)).length) ∧
      (∀ (L : List Char) (c d : Char) (R : List Char), deadC d = true →
        (applyRules rs (L ++ [c])).length ≤
          (applyRules rs (L ++ d :: R)).length) := by
  intro rs
  induction rs with
  | nil =>
    intro _
    constructor
    · intro x u
      show x.length ≤ (x ++ u).length
      simp only [List.length_append]
      omega
    · intro L c d R _
      show (L ++ [c]).length ≤ (L ++ d :: R).length
      simp only [List.length_append, List.length_cons, List.length_nil]
      omega
  | cons r rs ih =>
    intro hp
    have hpr := hp r (List.mem_cons_self _ _)
    have hp' := fun r hr => hp r (List.mem_cons_of_mem _ hr)
    obtain ⟨ihG, ihG2⟩ := ih hp'
    have hmiss : ∀ e, deadC e = true → ∀ r' ∈ rs, patHits r'.1 e = false :=
      fun e he r' hr' => (hp' r' hr').2 e he
    constructor
    · intro x u
      rw [applyRules_cons, applyRules_cons]
      rcases r with ⟨p, rep⟩
      cases p with
      | one m =>
        show (applyRules rs (replace1 m rep x)).length ≤
          (applyRules rs (replace1 m rep (x ++ u))).length
        rw [replace1_append]
        exact ihG _ _
      | two m1 m2 =>
        show (applyRules rs (replace2 m1 m2 rep x)).length ≤
          (applyRules rs (replace2 m1 m2 rep (x ++ u))).length
        rcases replace2_cut m1 m2 rep x u with hcut |
          ⟨x1, c, d, u1, hx, hu, hfx, hfxu⟩
        · rw [hcut]
          exact ihG _ _
        · rw [hfx, hfxu]
          exact ihG2 _ c rep _ hpr.1
    · intro L c d R hd
      rw [applyRules_cons, applyRules_cons]
      rcases r with ⟨p, rep⟩
      have hpd : patHits p d = false := hpr.2 d hd
      cases p with
      | one m =>
        have hmd : m d = false := by simpa [patHits] using hpd
        show (applyRules rs (replace1 m rep (L ++ [c]))).length ≤
          (applyRules rs (replace1 m rep (L ++ d :: R))).length
        rw [replace1_append, replace1_split m rep d hmd]
        have h1c : replace1 m rep [c] = [if m c = true then rep else c] := by
          by_cases hmc : m c = true <;> simp [replace1, hmc]
        rw [h1c]
        exact ihG2 _ _ d _ hd
      | two m1 m2 =>
        have hmd : (m1 d || m2 d) = false := by simpa [patHits] using hpd
        rcases Bool.or_eq_false_iff.mp hmd with ⟨hmd1, hmd2⟩
        show (applyRules rs (replace2 m1 m2 rep (L ++ [c]))).length ≤
          (applyRules rs (replace2 m1 m2 rep (L ++ d :: R))).length
        rw [replace2_split m1 m2 rep d hmd1 hmd2 L R]
        rcases replace2_cut m1 m2 rep L [c] with hcut |
          ⟨L1, e, d', u1, hL, hu, hfL, hfLc⟩
        · rw [hcut, show replace2 m1 m2 rep [c] = [c] from rfl]
          exact ihG2 _ c d _ hd
        · injection hu with hcd hu1
          subst hcd
          subst hu1
          rw [show replace2 m1 m2 rep ([] : List Char) = [] from rfl] at hfLc
          rw [hfLc, hfL]
          have hsA : applyRules rs (replace2 m1 m2 rep L1 ++ [rep]) =
              applyRules rs (replace2 m1 m2 rep L1) ++
                rep :: applyRules rs [] :=
            applyRules_split rs rep (fun r' hr' => hmiss rep hpr.1 r' hr') _ _
          have hsB : applyRules rs ((replace2 m1 m2 rep L1 ++ [e]) ++
                d :: replace2 m1 m2 rep R) =
              applyRules rs (replace2 m1 m2 rep L1 ++ [e]) ++
                d :: applyRules rs (replace2 m1 m2 rep R) :=
            applyRules_split rs d (fun r' hr' => hmiss d hd r' hr') _ _
          rw [hsA, hsB, applyRules_nil]
          have hG := ihG (replace2 m1 m2 rep L1) [e]
          simp only [List.length_append, List.length_cons, List.length_nil]
          omega

/-- Appending further input can never shorten the transliteration: the
length of `transliterate x` never exceeds that of `transliterate (x ++ u)`. -/
theorem transliterate_length_mono (x u : List Char) :
    (transliterate x).length ≤ (transliterate (x ++ u)).length := by
  have hp : ∀ r ∈ rules, deadC r.2 = true ∧
      ∀ e, deadC e = true → patHits r.1 e = false := by
    intro r hr
    constructor
    · have hall : ∀ r ∈ rules, deadC r.2 = true := by decide
      exact hall r hr
    · intro e he
      exact deadC_patMiss he r hr
  exact (monoGG rules hp).1 x u

theorem rt_toNat_congr (t : List Char) {c1 c2 : Int} (h : c1.toNat = c2.toNat) :
    transliterateRealTime true t c1 = transliterateRealTime true t c2 := by
  rw [rt_true_eq, rt_true_eq, h]

theorem rt_high (t : List Char) {c : Int} (h : (t.length : Int) < c) :
    transliterateRealTime true t c =
      transliterateRealTime true t (t.length : Int) := by
  have hlen : t.length ≤ c.toNat := by omega
  have hnat : ((t.length : Int)).toNat = t.length := by omega
  rw [rt_true_eq, rt_true_eq, hnat]
  have hleft : leftB t c.toNat = leftB t t.length := by
    unfold leftB
    rw [scanLeft_high hlen]
  have hright : rightB t c.toNat = rightB t t.length := by
    unfold rightB
    rw [Nat.min_eq_right hlen, Nat.min_self]
  have htake : t.take c.toNat = t.take t.length := by
    rw [List.take_of_length_le hlen, List.take_length]
  rw [hleft, hright, htake]

theorem rt_snd (t : List Char) (c : Int) :
    (transliterateRealTime true t c).2 =
      ((transliterate (t.take c.toNat)).length : Int) := by
  rw [rt_true_eq]

theorem rt_fst_len (t : List Char) (c : Int) :
    (transliterateRealTime true t c).1.length = (transliterate t).length := by
  rw [rt_text_full]

/-- Counterexample to claim C2: on the input `"sh"` with the cursor between
the `s` and the `h`, the returned text is `"ش"` and the new cursor position
is `1 = |transliterate("s")|`, but the prefix of the returned text of that
length is `"ش"` while `transliterate("s") = "س"` — the prefix-equality
clause of the claim fails. -/
theorem claim_C2_counterexample :
    ¬ ((transliterateRealTime true "sh".toList 1).1.take
          (transliterateRealTime true "sh".toList 1).2.toNat =
        transliterate ("sh".toList.take (1 : Int).toNat)) := by
  decide

/-- Claim C2 (amended): when the engine is enabled and the cursor position
lies in `[0, |currentText|]`, the returned `newCursorPosition` is
non-negative, does not exceed the length of the returned text, and equals
the length of `transliterate(currentText[0..cursorPosition))`.  (The
original claim's further clause — that the prefix of the returned text of
that length equals `transliterate(currentText[0..cursorPosition))` — is
false: a digraph can straddle the cursor, as on input `"sh"` with cursor
`1`.) -/
theorem claim_C2_cursor_position :
    ∀ (t : List Char) (c : Int), 0 ≤ c → c ≤ (t.length : Int) →
      0 ≤ (transliterateRealTime true t c).2 ∧
      (transliterateRealTime true t c).2 ≤
        ((transliterateRealTime true t c).1.length : Int) ∧
      (transliterateRealTime true t c).2 =
        ((transliterate (t.take c.toNat)).length : Int) := by
  intro t c _ _
  refine ⟨?_, ?_, rt_snd t c⟩
  · rw [rt_snd]
    exact Int.natCast_nonneg _
  · rw [rt_snd]
    have h1 : (transliterate (t.take c.toNat)).length ≤
        (transliterate t).length := by
      calc (transliterate (t.take c.toNat)).length
          ≤ (transliterate (t.take c.toNat ++ t.drop c.toNat)).length :=
            transliterate_length_mono _ _
        _ = (transliterate t).length := by rw [List.take_append_drop]
    rw [rt_fst_len]
    exact_mod_cast h1

/-- Witness for claim C2 at the concrete input `"mar7aba"` with cursor
position `2`. -/
theorem claim_C2_witness :
    ((0 : Int) ≤ 2 ∧ (2 : Int) ≤ ("mar7aba".toList.length : Int)) ∧
      (0 ≤ (transliterateRealTime true "mar7aba".toList 2).2 ∧
       (transliterateRealTime true "mar7aba".toList 2).2 ≤
         ((transliterateRealTime true "mar7aba".toList 2).1.length : Int) ∧
       (transliterateRealTime true "mar7aba".toList 2).2 =
         ((transliterate ("mar7aba".toList.take (2 : Int).toNat)).length : Int)) :=
  ⟨⟨by decide, by decide⟩,
    claim_C2_cursor_position "mar7aba".toList 2 (by decide) (by decide)⟩

/-- Claim C1: when the engine is enabled, the text field returned by
`transliterateRealTime(currentText, cursorPosition)` equals
`transliterate(currentText)` for every string and every integer cursor
position: transliterating the committed prefix, the active segment and the
suffix independently and concatenating yields the same string as
transliterating the whole input directly (the split points sit at
separator boundaries, and no rule pattern matches a separator). -/
theorem claim_C1_segmentation_independence :
    ∀ (t : List Char) (c : Int),
      (transliterateRealTime true t c).1 = transliterate t :=
  fun t c => rt_text_full t c

/-- Claim C7 (clamping part): `transliterateRealTime` is a total function
of every string and every integer cursor position (it is a Lean `def`
defined on all such inputs, so it can never throw), and when the engine is
enabled a negative cursor position behaves exactly like position `0`,
while a cursor position greater than the text length behaves exactly like
the text length. -/
theorem claim_C7_total_clamping :
    ∀ (t : List Char) (c : Int),
      (c < 0 → transliterateRealTime true t c = transliterateRealTime true t 0) ∧
      ((t.length : Int) < c →
        transliterateRealTime true t c =
          transliterateRealTime true t (t.length : Int)) := by
  intro t c
  constructor
  · intro hc
    exact rt_toNat_congr t (by omega)
  · intro hc
    exact rt_high t hc

/-- Witness for claim C7 at the concrete input `"ab"` with the
out-of-range cursor positions `-7` and `99`. -/
theorem claim_C7_witness :
    ((-7 : Int) < 0 ∧
      transliterateRealTime true "ab".toList (-7) =
        transliterateRealTime true "ab".toList 0) ∧
    (("ab".toList.length : Int) < 99 ∧
      transliterateRealTime true "ab".toList 99 =
        transliterateRealTime true "ab".toList ("ab".toList.length : Int)) :=
  ⟨⟨by decide, (claim_C7_total_clamping "ab".toList (-7)).1 (by decide)⟩,
   ⟨by decide, (claim_C7_total_clamping "ab".toList 99).2 (by decide)⟩⟩

/-- Claim C8: every string none of whose characters is accepted by any
rule pattern at any position (digits `0`, `1`, `4`, most punctuation,
Arabic and other non-Latin characters) passes through `transliterate`
unchanged, each character staying at its relative position; in particular
already-Arabic output is returned unchanged. -/
theorem claim_C8_passthrough :
    ∀ l : List Char, (∀ ch ∈ l, deadC ch = true) → transliterate l = l :=
  fun l h => applyRules_id rules l fun ch hch r hr => deadC_patMiss (h ch hch) r hr

/-- Witness for claim C8 at the concrete input `"014!س"` (uncovered
digits, punctuation and an Arabic letter). -/
theorem claim_C8_witness :
    (∀ ch ∈ "014!س".toList, deadC ch = true) ∧
      transliterate "014!س".toList = "014!س".toList :=
  ⟨by decide, claim_C8_passthrough "014!س".toList (by decide)⟩

/-- Claim C3: when the engine's enabled flag is false,
`transliterateRealTime(t, c)` returns exactly `{ text: t, newCursorPosition: c }`
for every string `t` and every integer `c`. -/
theorem claim_C3_disabled_identity :
    ∀ (t : List Char) (c : Int), transliterateRealTime false t c = (t, c) := by
  intro t c
  rfl

/-- Counterexample to claim C4: on input `"Sham"` the transliterated string
does not begin with `ص`; the case-insensitive tier-1 digraph `/sh/gi`
consumes the uppercase sequence `"Sh"` first, so the output begins with `ش`. -/
theorem claim_C4_counterexample :
    ¬ (transliterate "Sham".toList).head? = some 'ص' := by
  decide

/-- Claim C4 (amended): on input `"Sham"` the tier-1 digraph rule `sh`,
being case-insensitive, fires on the uppercase-S sequence `"Sh"` and maps it
to `ش` before the tier-3 emphatic rule can see the `S`; the remaining
letters `a`, `m` are mapped individually, so `transliterate("Sham") = "شام"`,
beginning with `ش`. -/
theorem claim_C4_sham_digraph :
    transliterate "Sham".toList = "شام".toList ∧
      (transliterate "Sham".toList).head? = some 'ش' := by
  constructor
  · decide
  · decide

/-- Claim C5: the rule table maps uppercase `T` to `ت`, uppercase `O` to `ؤ`
and uppercase `Y` to `ئ` in the tier-3 case-sensitive emphatic group
(table positions 14–16, right after `S`, `D`, `Z`), and lowercase `t` to `ة`
in the tier-4 base-consonant group (position 19); hence
`transliterate("T") = "ت"`, `transliterate("O") = "ؤ"`,
`transliterate("Y") = "ئ"` and `transliterate("t") = "ة"`. -/
theorem claim_C5_case_sensitive_taa :
    rules.get? 14 = some (Pat.one (ex 'T'), 'ت') ∧
    rules.get? 15 = some (Pat.one (ex 'O'), 'ؤ') ∧
    rules.get? 16 = some (Pat.one (ex 'Y'), 'ئ') ∧
    rules.get? 19 = some (Pat.one (ex 't'), 'ة') ∧
    transliterate "T".toList = "ت".toList ∧
    transliterate "O".toList = "ؤ".toList ∧
    transliterate "Y".toList = "ئ".toList ∧
    transliterate "t".toList = "ة".toList := by
  refine ⟨rfl, rfl, rfl, rfl, ?_, ?_, ?_, ?_⟩ <;> decide

/-- Counterexample to claim C6: `transliterate("3arabiyya")` is not the
8-character string `"عارابييا"`; the 9 input characters `3,a,r,a,b,i,y,y,a`
each map to one Arabic character (`i→ي`, and both `y`s map to `ي`). -/
theorem claim_C6_counterexample :
    ¬ transliterate "3arabiyya".toList = "عارابييا".toList := by
  decide

/-- Claim C6 (amended): the full-text transliterator applied to
`"3arabiyya"` produces exactly the 9-character Arabic string `"عارابيييا"`
(with three `ي`: one from `i` and one from each `y`). -/
theorem claim_C6_numerals_golden :
    transliterate "3arabiyya".toList = "عارابيييا".toList := by
  decide

/-- Claim C10: `transliterate` is idempotent on all inputs — every
character of a transliterated string is either an Arabic replacement
character (matched by no rule) or a surviving character that no
single-character rule accepts, and since no `h`/`H` survives the `h` rule,
no digraph can fire on the output either, so a second pass changes
nothing. -/
theorem claim_C10_idempotence :
    ∀ l : List Char, transliterate (transliterate l) = transliterate l :=
  fun l => applyRules_stable_id rules (transliterate l) (stable_out l)

/-- Claim C9: the enabled flag has no effect on rule application —
`setEnabled` changes only the `isEnabled` field, leaving the rule table,
the separator set and the keyboard layout unchanged, and the
`transliterate` method reads only the rule table, so its result is the same
whatever the flag holds. -/
theorem claim_C9_enabled_frame :
    ∀ (e : ArabicTransliterator) (b : Bool) (l : List Char),
      (setEnabled e b).transliterateM l = e.transliterateM l ∧
      (setEnabled e b).ruleTable = e.ruleTable ∧
      (setEnabled e b).separators = e.separators ∧
      (setEnabled e b).keyboardLayout = e.keyboardLayout ∧
      (setEnabled e b).isEnabled = b ∧
      mkTransliterator.transliterateM l = transliterate l := by
  intro e b l
  exact ⟨rfl, rfl, rfl, rfl, rfl, rfl⟩

end Translit
